import Mathlib

/-!
Verification of the SealPIR specification against the repository's code.

The repository's visible source is the benchmarking driver (src/main.cpp).
The PIR engine it drives (pir.hpp / pir_client.hpp / pir_server.hpp:
parameter derivation, database encoder, server expansion and reduction,
client query build and decode) is not part of src/, so those components
are modelled from the specification, as flagged on each definition.
The homomorphic-encryption primitive library (SEAL) is an external
collaborator per the spec and is modelled ideally: a ciphertext is
represented by its underlying plaintext content together with the
identifier of the key material it is bound to.
-/

namespace SealPIR

/-- Ceiling division on naturals: cldiv a b = ceil(a / b) for b > 0. -/
def cldiv (a b : Nat) : Nat := (a + b - 1) / b

/-- Little-endian bit decomposition of a natural number into w bits. -/
def natToBitsLE : Nat → Nat → List Bool
  | 0, _ => []
  | w + 1, n => (n % 2 == 1) :: natToBitsLE w (n / 2)

/-- Value of a little-endian bit list. -/
def bitsFromLE : List Bool → Nat
  | [] => 0
  | b :: bs => (if b then 1 else 0) + 2 * bitsFromLE bs

/-- Big-endian (most significant bit first) w-bit decomposition, as used by
the bit-sliced big-endian packing described in the spec. -/
def natToBits (w n : Nat) : List Bool := (natToBitsLE w n).reverse

/-- Value of a big-endian bit list. -/
def bitsToNat (l : List Bool) : Nat := bitsFromLE l.reverse

/-- Split a list into m consecutive chunks of k elements each. -/
def chunksN (k : Nat) : Nat → List α → List (List α)
  | 0, _ => []
  | m + 1, l => l.take k :: chunksN k m (l.drop k)

theorem length_natToBitsLE (w n : Nat) : (natToBitsLE w n).length = w := by
  induction w generalizing n with
  | zero => rfl
  | succ w ih => simp [natToBitsLE, ih]

theorem length_natToBits (w n : Nat) : (natToBits w n).length = w := by
  simp [natToBits, length_natToBitsLE]

theorem bitsFromLE_natToBitsLE (w n : Nat) :
    bitsFromLE (natToBitsLE w n) = n % 2 ^ w := by
  induction w generalizing n with
  | zero => simp [natToBitsLE, bitsFromLE, Nat.mod_one]
  | succ w ih =>
      have hp : 0 < 2 ^ w := pow_pos (by omega) w
      have hr : n / 2 % 2 ^ w < 2 ^ w := Nat.mod_lt _ hp
      have hd := Nat.div_add_mod (n / 2) (2 ^ w)
      have hd2 := Nat.div_add_mod n 2
      have hlt : 2 * (n / 2 % 2 ^ w) + n % 2 < 2 ^ (w + 1) := by
        rw [pow_succ']
        omega
      have hsplit : n = 2 * (n / 2 % 2 ^ w) + n % 2 + 2 ^ (w + 1) * (n / 2 / 2 ^ w) := by
        rw [pow_succ', mul_assoc]
        omega
      have hmod : n % 2 ^ (w + 1) = 2 * (n / 2 % 2 ^ w) + n % 2 := by
        conv_lhs => rw [hsplit]
        rw [Nat.add_mul_mod_self_left, Nat.mod_eq_of_lt hlt]
      simp only [natToBitsLE, bitsFromLE, ih, hmod]
      rcases Nat.mod_two_eq_zero_or_one n with h | h <;> simp [h] <;> omega

theorem bitsFromLE_lt (l : List Bool) : bitsFromLE l < 2 ^ l.length := by
  induction l with
  | nil => simp [bitsFromLE]
  | cons b bs ih =>
      simp only [bitsFromLE, List.length_cons]
      rw [pow_succ']
      cases b <;> simp <;> omega

theorem natToBitsLE_bitsFromLE (l : List Bool) :
    natToBitsLE l.length (bitsFromLE l) = l := by
  induction l with
  | nil => rfl
  | cons b bs ih =>
      simp only [List.length_cons, natToBitsLE, bitsFromLE]
      have hdiv : ((if b then 1 else 0) + 2 * bitsFromLE bs) / 2 = bitsFromLE bs := by
        cases b <;> simp <;> omega
      have hmod : (((if b then 1 else 0) + 2 * bitsFromLE bs) % 2 == 1) = b := by
        cases b <;> simp [Nat.add_mul_mod_self_left]
      rw [hdiv, hmod, ih]

theorem bitsToNat_natToBits (w n : Nat) : bitsToNat (natToBits w n) = n % 2 ^ w := by
  simp [bitsToNat, natToBits, List.reverse_reverse, bitsFromLE_natToBitsLE]

theorem natToBits_bitsToNat (l : List Bool) :
    natToBits l.length (bitsToNat l) = l := by
  have h := natToBitsLE_bitsFromLE l.reverse
  rw [List.length_reverse] at h
  simp [natToBits, bitsToNat, h]

theorem bitsToNat_lt (l : List Bool) : bitsToNat l < 2 ^ l.length := by
  have h := bitsFromLE_lt l.reverse
  rw [List.length_reverse] at h
  exact h

theorem length_chunksN (k m : Nat) (l : List α) : (chunksN k m l).length = m := by
  induction m generalizing l with
  | zero => rfl
  | succ m ih => simp [chunksN, ih]

theorem join_chunksN (k m : Nat) (l : List α) (h : l.length = m * k) :
    (chunksN k m l).flatten = l := by
  induction m generalizing l with
  | zero =>
      simp only [Nat.zero_mul] at h
      simp [chunksN, List.length_eq_zero.mp h]
  | succ m ih =>
      rw [Nat.succ_mul] at h
      simp only [chunksN, List.flatten]
      rw [ih (l.drop k) (by simp [List.length_drop]; omega)]
      exact List.take_append_drop k l

theorem chunksN_join (k : Nat) (ls : List (List α)) (h : ∀ c ∈ ls, c.length = k) :
    chunksN k ls.length ls.flatten = ls := by
  induction ls with
  | nil => rfl
  | cons c rest ih =>
      have hc : c.length = k := h c (List.mem_cons_self c rest)
      subst hc
      simp only [List.flatten, List.length_cons, chunksN]
      rw [List.take_left, List.drop_left]
      rw [ih fun x hx => h x (List.mem_cons_of_mem c hx)]

theorem getD_chunksN (k m u : Nat) (l : List α) (hu : u < m) :
    (chunksN k m l).getD u [] = (l.drop (u * k)).take k := by
  induction m generalizing u l with
  | zero => omega
  | succ m ih =>
      cases u with
      | zero => simp [chunksN]
      | succ u =>
          simp only [chunksN, List.getD_cons_succ]
          rw [ih u (l.drop k) (by omega), List.drop_drop, Nat.succ_mul]
          ring_nf

theorem length_mem_chunksN (k m : Nat) (l : List α) (h : l.length = m * k)
    (c : List α) (hc : c ∈ chunksN k m l) : c.length = k := by
  induction m generalizing l with
  | zero => simp [chunksN] at hc
  | succ m ih =>
      rw [Nat.succ_mul] at h
      simp only [chunksN, List.mem_cons] at hc
      rcases hc with hc | hc
      · subst hc
        simp [List.length_take]
        omega
      · exact ih (l.drop k) (by simp [List.length_drop]; omega) hc

theorem mem_of_mem_chunksN (k m : Nat) (l : List α) (c : List α)
    (hc : c ∈ chunksN k m l) (a : α) (ha : a ∈ c) : a ∈ l := by
  induction m generalizing l with
  | zero => simp [chunksN] at hc
  | succ m ih =>
      simp only [chunksN, List.mem_cons] at hc
      rcases hc with hc | hc
      · subst hc
        exact List.mem_of_mem_take ha
      · exact List.mem_of_mem_drop (ih (l.drop k) hc)

/-- Modelled from the spec: the encoder's byte-to-coefficient packing
(bytes_to_coeffs of the missing pir.cpp), which encodes logt bits per ring
coefficient, bit-sliced big-endian style (spec section 4.2). -/
def bytes_to_coeffs (logt : Nat) (bytes : List Nat) : List Nat :=
  (chunksN logt (8 * bytes.length / logt) ((bytes.map (natToBits 8)).flatten)).map bitsToNat

/-- Modelled from the spec: the client-side coefficient unpacking
(coeffs_to_bytes of the missing pir.cpp, called by the driver at
src/main.cpp line 105), exact inverse of bytes_to_coeffs. -/
def coeffs_to_bytes (logt : Nat) (coeffs : List Nat) : List Nat :=
  (chunksN 8 (coeffs.length * logt / 8) ((coeffs.map (natToBits logt)).flatten)).map bitsToNat

theorem length_flatten_map_natToBits (w : Nat) (l : List Nat) :
    ((l.map (natToBits w)).flatten).length = l.length * w := by
  induction l with
  | nil => simp
  | cons a l ih => simp [ih, length_natToBits, Nat.succ_mul, Nat.add_comm]

theorem length_bytes_to_coeffs (logt : Nat) (bytes : List Nat) :
    (bytes_to_coeffs logt bytes).length = 8 * bytes.length / logt := by
  simp [bytes_to_coeffs, length_chunksN]

theorem length_coeffs_to_bytes (logt : Nat) (coeffs : List Nat) :
    (coeffs_to_bytes logt coeffs).length = coeffs.length * logt / 8 := by
  simp [coeffs_to_bytes, length_chunksN]

theorem bytes_to_coeffs_lt (logt : Nat) (bytes : List Nat)
    (hdvd : logt ∣ 8 * bytes.length) :
    ∀ x ∈ bytes_to_coeffs logt bytes, x < 2 ^ logt := by
  intro x hx
  simp only [bytes_to_coeffs, List.mem_map] at hx
  rcases hx with ⟨c, hc, rfl⟩
  have hlen : ((bytes.map (natToBits 8)).flatten).length = 8 * bytes.length / logt * logt := by
    rw [length_flatten_map_natToBits, Nat.div_mul_cancel hdvd]
    ring
  have := length_mem_chunksN _ _ _ hlen c hc
  rw [← this]
  exact bitsToNat_lt c

theorem coeffs_to_bytes_bytes_to_coeffs (logt : Nat) (bytes : List Nat)
    (hdvd : logt ∣ 8 * bytes.length) (hb : ∀ b ∈ bytes, b < 256) :
    coeffs_to_bytes logt (bytes_to_coeffs logt bytes) = bytes := by
  have hlen : ((bytes.map (natToBits 8)).flatten).length = 8 * bytes.length / logt * logt := by
    rw [length_flatten_map_natToBits, Nat.div_mul_cancel hdvd]
    ring
  have hchunk : ∀ c ∈ chunksN logt (8 * bytes.length / logt)
      ((bytes.map (natToBits 8)).flatten), c.length = logt :=
    length_mem_chunksN _ _ _ hlen
  have hmap : (bytes_to_coeffs logt bytes).map (natToBits logt)
      = chunksN logt (8 * bytes.length / logt) ((bytes.map (natToBits 8)).flatten) := by
    rw [bytes_to_coeffs, List.map_map]
    refine List.map_congr_left ?_ |>.trans (List.map_id _)
    intro c hc
    have hcl := hchunk c hc
    simpa [Function.comp, hcl] using congrArg id (by rw [← hcl]; exact natToBits_bitsToNat c)
  have hflat : ((bytes_to_coeffs logt bytes).map (natToBits logt)).flatten
      = (bytes.map (natToBits 8)).flatten := by
    rw [hmap]
    exact join_chunksN _ _ _ hlen
  have hcount : (bytes_to_coeffs logt bytes).length * logt / 8 = bytes.length := by
    rw [length_bytes_to_coeffs, Nat.div_mul_cancel hdvd, Nat.mul_div_cancel_left _ (by omega)]
  rw [coeffs_to_bytes, hflat, hcount]
  have h8 : ∀ c ∈ bytes.map (natToBits 8), c.length = 8 := by
    intro c hc
    simp only [List.mem_map] at hc
    rcases hc with ⟨b, _, rfl⟩
    exact length_natToBits 8 b
  have hlen2 : bytes.length = (bytes.map (natToBits 8)).length := by simp
  rw [hlen2, chunksN_join 8 _ h8, List.map_map]
  refine (List.map_congr_left ?_).trans (List.map_id _)
  intro b hbmem
  have : bitsToNat (natToBits 8 b) = b % 2 ^ 8 := bitsToNat_natToBits 8 b
  simp only [Function.comp_apply, id_eq, this]
  exact Nat.mod_eq_of_lt (by have := hb b hbmem; omega)

/-- Modelled from the spec (§3 index mapping): mixed-radix decomposition of a
plaintext-unit index against the hypercube dimensions (n_0, ..., n_{d-1}),
least-significant dimension first. -/
def decomposeIndex : Nat → List Nat → List Nat
  | _, [] => []
  | j, n :: ns => j % n :: decomposeIndex (j / n) ns

/-- Mixed-radix recomposition, the inverse of decomposeIndex. -/
def composeIndex : List Nat → List Nat → Nat
  | c :: cs, n :: ns => c + n * composeIndex cs ns
  | _, _ => 0

theorem length_decomposeIndex (j : Nat) (ns : List Nat) :
    (decomposeIndex j ns).length = ns.length := by
  induction ns generalizing j with
  | nil => rfl
  | cons n ns ih => simp [decomposeIndex, ih]

theorem pos_of_lt_prod (j : Nat) (ns : List Nat) (h : j < ns.prod) :
    ∀ n ∈ ns, 0 < n := by
  intro n hn
  by_contra hc
  have h0 : n = 0 := by omega
  have : ns.prod = 0 := List.prod_eq_zero (h0 ▸ hn)
  omega

theorem decomposeIndex_lt (j : Nat) (ns : List Nat) (h : j < ns.prod) :
    List.Forall₂ (· < ·) (decomposeIndex j ns) ns := by
  induction ns generalizing j with
  | nil => exact List.Forall₂.nil
  | cons n ns ih =>
      rw [List.prod_cons] at h
      have hn : 0 < n := by
        rcases Nat.eq_zero_or_pos n with h0 | h0
        · subst h0; omega
        · exact h0
      refine List.Forall₂.cons (Nat.mod_lt _ hn) (ih _ ?_)
      rw [Nat.div_lt_iff_lt_mul hn, mul_comm]
      exact h

theorem composeIndex_decomposeIndex (j : Nat) (ns : List Nat) (h : j < ns.prod) :
    composeIndex (decomposeIndex j ns) ns = j := by
  induction ns generalizing j with
  | nil => simp [List.prod_nil] at h; simp [decomposeIndex, composeIndex]; omega
  | cons n ns ih =>
      rw [List.prod_cons] at h
      have hn : 0 < n := by
        rcases Nat.eq_zero_or_pos n with h0 | h0
        · subst h0; omega
        · exact h0
      simp only [decomposeIndex, composeIndex]
      rw [ih _ (by rw [Nat.div_lt_iff_lt_mul hn, mul_comm]; exact h)]
      exact Nat.mod_add_div j n

theorem decomposeIndex_composeIndex (cs ns : List Nat)
    (h : List.Forall₂ (· < ·) cs ns) :
    decomposeIndex (composeIndex cs ns) ns = cs := by
  induction h with
  | nil => rfl
  | @cons c n cs ns hcn _ ih =>
      have hn : 0 < n := by omega
      simp only [composeIndex, decomposeIndex]
      rw [Nat.add_mul_mod_self_left, Nat.mod_eq_of_lt hcn,
        Nat.add_mul_div_left _ _ hn, Nat.div_eq_of_lt hcn, Nat.zero_add, ih]

theorem cldiv_pos (a b : Nat) (ha : 0 < a) (hb : 0 < b) : 0 < cldiv a b := by
  rw [cldiv, Nat.lt_iff_add_one_le, Nat.le_div_iff_mul_le hb]
  omega

theorem le_cldiv_mul (a b : Nat) (hb : 0 < b) : a ≤ cldiv a b * b := by
  rw [cldiv]
  have h1 := Nat.div_add_mod (a + b - 1) b
  have h2 : (a + b - 1) % b < b := Nat.mod_lt _ hb
  rw [mul_comm]
  omega

theorem cldiv_mul_self (a b : Nat) (hb : 0 < b) : cldiv (a * b) b = a := by
  rw [cldiv]
  have h1 : a * b + b - 1 = b * a + (b - 1) := by
    rw [mul_comm]
    omega
  rw [h1, Nat.mul_add_div hb, Nat.div_eq_of_lt (by omega), Nat.add_zero]

theorem div_lt_cldiv (a b c : Nat) (hb : 0 < b) (hac : a < c) : a / b < cldiv c b := by
  have h1 : a / b + 1 = (a + b) / b := (Nat.add_div_right a hb).symm
  have h2 : (a + b) / b ≤ (c + b - 1) / b := Nat.div_le_div_right (by omega)
  rw [cldiv]
  omega

/-- Modelled from the spec: base size for a balanced hypercube, the least
n with cnt ≤ n ^ dd (at least 1). The spec only requires the derived
per-dimension sizes to satisfy Π n_i ≥ total plaintext-unit count. -/
def rootCeil (dd cnt : Nat) : Nat :=
  max 1 (((List.range (cnt + 2)).find? fun n => cnt ≤ n ^ dd).getD cnt)

/-- Modelled from the spec (§3, §4.1): the derived per-dimension sizes
(n_0, ..., n_{d-1}) of the d-dimensional hypercube, satisfying
Π n_i ≥ total plaintext-unit count. -/
def hypercubeDims : Nat → Nat → List Nat
  | _, 0 => []
  | cnt, 1 => [cnt]
  | cnt, dd + 2 => rootCeil (dd + 2) cnt :: hypercubeDims (cldiv cnt (rootCeil (dd + 2) cnt)) (dd + 1)

theorem rootCeil_pos (dd cnt : Nat) : 0 < rootCeil dd cnt :=
  Nat.lt_of_lt_of_le Nat.zero_lt_one (le_max_left _ _)

theorem length_hypercubeDims (cnt dd : Nat) : (hypercubeDims cnt dd).length = dd := by
  induction dd using Nat.strong_induction_on generalizing cnt with
  | _ dd ih =>
      match dd with
      | 0 => rfl
      | 1 => rfl
      | dd + 2 => simp [hypercubeDims, ih (dd + 1) (by omega)]

theorem hypercubeDims_pos (cnt dd : Nat) (h : 0 < cnt) :
    ∀ n ∈ hypercubeDims cnt dd, 0 < n := by
  induction dd using Nat.strong_induction_on generalizing cnt with
  | _ dd ih =>
      match dd with
      | 0 => intro n hn; simp [hypercubeDims] at hn
      | 1 =>
          intro n hn
          simp [hypercubeDims] at hn
          omega
      | dd + 2 =>
          intro n hn
          simp only [hypercubeDims, List.mem_cons] at hn
          rcases hn with hn | hn
          · subst hn; exact rootCeil_pos _ _
          · exact ih (dd + 1) (by omega) _
              (cldiv_pos cnt _ h (rootCeil_pos _ _)) n hn

theorem le_prod_hypercubeDims (cnt dd : Nat) (hd : 0 < dd) :
    cnt ≤ (hypercubeDims cnt dd).prod := by
  induction dd using Nat.strong_induction_on generalizing cnt with
  | _ dd ih =>
      match dd with
      | 1 => simp [hypercubeDims]
      | dd + 2 =>
          simp only [hypercubeDims, List.prod_cons]
          have h1 : cldiv cnt (rootCeil (dd + 2) cnt)
              ≤ (hypercubeDims (cldiv cnt (rootCeil (dd + 2) cnt)) (dd + 1)).prod :=
            ih (dd + 1) (by omega) _ (by omega)
          calc cnt ≤ cldiv cnt (rootCeil (dd + 2) cnt) * rootCeil (dd + 2) cnt :=
                le_cldiv_mul _ _ (rootCeil_pos _ _)
            _ = rootCeil (dd + 2) cnt * cldiv cnt (rootCeil (dd + 2) cnt) := mul_comm _ _
            _ ≤ rootCeil (dd + 2) cnt * (hypercubeDims (cldiv cnt (rootCeil (dd + 2) cnt)) (dd + 1)).prod :=
                Nat.mul_le_mul_left _ h1

/-- The zero plaintext polynomial of ring degree N (the zero-filled padding
units of spec section 4.2). -/
def zeroPoly (N : Nat) : List Nat := List.replicate N 0

/-- Coefficient-wise addition in the plaintext ring Z_t. -/
def polyAdd (t : Nat) (p q : List Nat) : List Nat :=
  List.zipWith (fun a b => (a + b) % t) p q

/-- Selection scalar times plaintext unit, coefficient-wise in Z_t. -/
def polyScale (t s : Nat) (p : List Nat) : List Nat := p.map fun a => s * a % t

/-- One-hot selection vector of length n with the 1 at position c: the ideal
content of an expanded query dimension (spec: all entries encrypt 0 except
the entry at the requested coordinate, which encrypts 1). -/
def onehot : Nat → Nat → List Nat
  | _, 0 => []
  | 0, n + 1 => 1 :: List.replicate n 0
  | c + 1, n + 1 => 0 :: onehot c n

/-- Modelled from the spec (§4.3 step 3): homomorphic dot product between the
n_i selection entries and the n_i plaintext units of one row — elementwise
multiply then sum. -/
def dotRow (t N : Nat) : List Nat → List (List Nat) → List Nat
  | s :: sel, p :: row => polyAdd t (polyScale t s p) (dotRow t N sel row)
  | _, _ => zeroPoly N

/-- Modelled from the spec (§4.3 step 3): one dimension-reduction round — for
every remaining row along the current dimension, the dot product with that
dimension's selection vector. -/
def reduceDim (t N : Nat) (sel : List Nat) (cube : List (List Nat)) : List (List Nat) :=
  (List.range (cube.length / sel.length)).map fun r =>
    dotRow t N sel ((cube.drop (r * sel.length)).take sel.length)

/-- Modelled from the spec (§4.3, §9): the multi-round dimension reduction as
a fold over dimensions, consuming one selection vector per round. -/
def reduceAll (t N : Nat) : List (List Nat) → List (List Nat) → List (List Nat)
  | [], cube => cube
  | sel :: sels, cube => reduceAll t N sels (reduceDim t N sel cube)

theorem length_onehot (c n : Nat) : (onehot c n).length = n := by
  induction n generalizing c with
  | zero => cases c <;> rfl
  | succ n ih => cases c <;> simp [onehot, ih]

theorem polyScale_zero (t : Nat) (p : List Nat) :
    polyScale t 0 p = List.replicate p.length 0 := by
  induction p with
  | nil => rfl
  | cons a p ih =>
      simp only [polyScale] at ih
      simp [polyScale, List.replicate_succ, ih]

theorem polyScale_one (t : Nat) (p : List Nat) (hp : ∀ a ∈ p, a < t) :
    polyScale t 1 p = p := by
  induction p with
  | nil => rfl
  | cons a p ih =>
      simp only [polyScale, List.map_cons, one_mul] at ih ⊢
      rw [Nat.mod_eq_of_lt (hp a (List.mem_cons_self a p)),
        ih fun x hx => hp x (List.mem_cons_of_mem a hx)]

theorem polyAdd_zeroPoly_zeroPoly (t N : Nat) :
    polyAdd t (zeroPoly N) (zeroPoly N) = zeroPoly N := by
  induction N with
  | zero => rfl
  | succ N ih =>
      simp only [zeroPoly, polyAdd] at ih ⊢
      simp only [List.replicate_succ, List.zipWith_cons_cons]
      rw [ih]
      simp

theorem polyAdd_zeroPoly_left (t : Nat) (q : List Nat) (hq : ∀ a ∈ q, a < t) :
    polyAdd t (List.replicate q.length 0) q = q := by
  induction q with
  | nil => rfl
  | cons a q ih =>
      simp only [polyAdd, List.length_cons, List.replicate_succ, List.zipWith_cons_cons] at ih ⊢
      rw [Nat.zero_add, Nat.mod_eq_of_lt (hq a (List.mem_cons_self a q)),
        ih fun x hx => hq x (List.mem_cons_of_mem a hx)]

theorem polyAdd_zeroPoly_right (t : Nat) (p : List Nat) (hp : ∀ a ∈ p, a < t) :
    polyAdd t p (List.replicate p.length 0) = p := by
  induction p with
  | nil => rfl
  | cons a p ih =>
      simp only [polyAdd, List.length_cons, List.replicate_succ, List.zipWith_cons_cons] at ih ⊢
      rw [Nat.add_zero, Nat.mod_eq_of_lt (hp a (List.mem_cons_self a p)),
        ih fun x hx => hp x (List.mem_cons_of_mem a hx)]

theorem dotRow_zeros (t N k : Nat) (row : List (List Nat))
    (hN : ∀ p ∈ row, p.length = N) :
    dotRow t N (List.replicate k 0) row = zeroPoly N := by
  induction k generalizing row with
  | zero => cases row <;> rfl
  | succ k ih =>
      cases row with
      | nil => rfl
      | cons p row =>
          simp only [List.replicate_succ, dotRow]
          rw [ih row fun x hx => hN x (List.mem_cons_of_mem p hx)]
          rw [polyScale_zero, hN p (List.mem_cons_self p row)]
          exact polyAdd_zeroPoly_zeroPoly t N

theorem dotRow_onehot (t N : Nat) (c n : Nat) (row : List (List Nat))
    (hlen : row.length = n) (hc : c < n)
    (hN : ∀ p ∈ row, p.length = N) (hlt : ∀ p ∈ row, ∀ a ∈ p, a < t) :
    dotRow t N (onehot c n) row = row.getD c [] := by
  induction c generalizing n row with
  | zero =>
      cases n with
      | zero => omega
      | succ n =>
          cases row with
          | nil => simp at hlen
          | cons p row =>
              simp only [onehot, dotRow, List.getD_cons_zero]
              rw [dotRow_zeros t N n row fun x hx => hN x (List.mem_cons_of_mem p hx)]
              rw [polyScale_one t p (hlt p (List.mem_cons_self p row))]
              have hpn : p.length = N := hN p (List.mem_cons_self p row)
              rw [zeroPoly, ← hpn]
              exact polyAdd_zeroPoly_right t p (hlt p (List.mem_cons_self p row))
  | succ c ih =>
      cases n with
      | zero => omega
      | succ n =>
          cases row with
          | nil => simp at hlen
          | cons p row =>
              simp only [onehot, dotRow, List.getD_cons_succ]
              have hrow : row.length = n := by simpa using hlen
              rw [ih n row hrow (by omega)
                (fun x hx => hN x (List.mem_cons_of_mem p hx))
                (fun x hx => hlt x (List.mem_cons_of_mem p hx))]
              have hmem : row.getD c [] ∈ row := by
                rw [List.getD_eq_getElem row [] (by omega)]
                exact List.getElem_mem _
              rw [polyScale_zero, hN p (List.mem_cons_self p row)]
              have hlen2 : (row.getD c []).length = N := hN _ (List.mem_cons_of_mem p hmem)
              have := polyAdd_zeroPoly_left t (row.getD c [])
                (hlt _ (List.mem_cons_of_mem p hmem))
              rw [hlen2] at this
              exact this

theorem getD_drop_take (l : List α) (s k c : Nat) (d : α) (hc : c < k)
    (hin : s + c < l.length) :
    ((l.drop s).take k).getD c d = l.getD (s + c) d := by
  have h1 : c < ((l.drop s).take k).length := by
    simp only [List.length_take, List.length_drop]
    omega
  rw [List.getD_eq_getElem _ _ h1, List.getD_eq_getElem _ _ hin,
    List.getElem_take, List.getElem_drop]

theorem getD_map_range (m j : Nat) (f : Nat → α) (d : α) (hj : j < m) :
    ((List.range m).map f).getD j d = f j := by
  have h1 : j < ((List.range m).map f).length := by simp [hj]
  rw [List.getD_eq_getElem _ _ h1, List.getElem_map, List.getElem_range]

theorem composeIndex_lt (cs ns : List Nat) (hf : List.Forall₂ (· < ·) cs ns) :
    composeIndex cs ns < ns.prod := by
  induction hf with
  | nil => simp [composeIndex]
  | @cons c n cs ns hcn _ ih =>
      simp only [composeIndex, List.prod_cons]
      have h1 : composeIndex cs ns + 1 ≤ ns.prod := ih
      calc c + n * composeIndex cs ns + 1 ≤ n * composeIndex cs ns + n := by omega
        _ = n * (composeIndex cs ns + 1) := by ring
        _ ≤ n * ns.prod := Nat.mul_le_mul_left n h1

theorem reduceDim_onehot (t N n m c : Nat) (cube : List (List Nat))
    (hlen : cube.length = n * m) (hn : 0 < n) (hc : c < n)
    (hN : ∀ p ∈ cube, p.length = N) (hlt : ∀ p ∈ cube, ∀ a ∈ p, a < t) :
    reduceDim t N (onehot c n) cube
      = (List.range m).map fun r => cube.getD (r * n + c) [] := by
  have hdiv : cube.length / (onehot c n).length = m := by
    rw [length_onehot, hlen, Nat.mul_div_cancel_left _ hn]
  rw [reduceDim, hdiv, length_onehot]
  apply List.map_congr_left
  intro r hr
  rw [List.mem_range] at hr
  have hrn : r * n + n ≤ n * m := by
    have h1 : (r + 1) * n ≤ m * n := Nat.mul_le_mul_right n (by omega)
    rw [Nat.succ_mul] at h1
    rw [mul_comm n m]
    exact h1
  have hslice_len : ((cube.drop (r * n)).take n).length = n := by
    simp only [List.length_take, List.length_drop, hlen]
    omega
  have hslice_mem : ∀ p ∈ (cube.drop (r * n)).take n, p ∈ cube := by
    intro p hp
    exact List.mem_of_mem_drop (List.mem_of_mem_take hp)
  rw [dotRow_onehot t N c n _ hslice_len hc
    (fun p hp => hN p (hslice_mem p hp)) (fun p hp => hlt p (hslice_mem p hp))]
  exact getD_drop_take cube (r * n) n c [] hc (by omega)

theorem reduceAll_select (t N : Nat) (cs ns : List Nat) (cube : List (List Nat))
    (hf : List.Forall₂ (· < ·) cs ns) (hlen : cube.length = ns.prod)
    (hN : ∀ p ∈ cube, p.length = N) (hlt : ∀ p ∈ cube, ∀ a ∈ p, a < t) :
    reduceAll t N (List.zipWith onehot cs ns) cube
      = [cube.getD (composeIndex cs ns) []] := by
  induction hf generalizing cube with
  | nil =>
      rw [List.prod_nil] at hlen
      rcases List.length_eq_one.mp hlen with ⟨p, rfl⟩
      rfl
  | @cons c n cs ns hcn hf ih =>
      have hnpos : 0 < n := by omega
      rw [List.prod_cons] at hlen
      rw [List.zipWith_cons_cons]
      simp only [reduceAll]
      rw [reduceDim_onehot t N n ns.prod c cube hlen hnpos hcn hN hlt]
      have hidx : ∀ r, r < ns.prod → r * n + c < cube.length := by
        intro r hr
        have h1 : (r + 1) * n ≤ ns.prod * n := Nat.mul_le_mul_right n (by omega)
        rw [Nat.succ_mul] at h1
        rw [hlen, mul_comm n ns.prod]
        omega
      have hmem : ∀ q ∈ (List.range ns.prod).map fun r => cube.getD (r * n + c) [],
          q ∈ cube := by
        intro q hq
        simp only [List.mem_map, List.mem_range] at hq
        rcases hq with ⟨r, hr, rfl⟩
        rw [List.getD_eq_getElem _ _ (hidx r hr)]
        exact List.getElem_mem _
      rw [ih _ (by simp) (fun p hp => hN p (hmem p hp)) (fun p hp => hlt p (hmem p hp))]
      have hj : composeIndex cs ns < ns.prod := composeIndex_lt cs ns hf
      rw [getD_map_range _ _ _ _ hj]
      have harith : composeIndex cs ns * n + c = composeIndex (c :: cs) (n :: ns) := by
        simp only [composeIndex]
        ring
      rw [harith]

/-- Error kinds of spec §7 arising in the modelled operations. -/
inductive PirError
  | KeyNotFound
  | DimensionMismatch
  | IndexOutOfRange
deriving DecidableEq

/-- The scheme knobs and dataset shape passed to gen_params by the driver
(src/main.cpp lines 17-30): ring degree N, plaintext bit-width logt,
dimension count d, item count and item byte size. -/
structure PirParams where
  N : Nat
  logt : Nat
  d : Nat
  ele_num : Nat
  ele_size : Nat
deriving DecidableEq

/-- Plaintext capacity in bytes: N * logt / 8 (spec §3). -/
def plainCapacity (p : PirParams) : Nat := p.N * p.logt / 8

/-- Elements (whole items) per plaintext unit (spec §3). -/
def elementsPerPlaintext (p : PirParams) : Nat := plainCapacity p / p.ele_size

/-- Number of plaintext units a single item spans — the spec's "expansion
ratio" (1 when the item fits in one plaintext unit). -/
def expansionFactor (p : PirParams) : Nat := cldiv p.ele_size (plainCapacity p)

/-- Total plaintext-unit count = ceil(total item bytes / plaintext capacity)
(spec §3). -/
def numPlaintexts (p : PirParams) : Nat := cldiv (p.ele_num * p.ele_size) (plainCapacity p)

/-- The derived hypercube dimension sizes (n_0, ..., n_{d-1}). -/
def pirDims (p : PirParams) : List Nat := hypercubeDims (numPlaintexts p) p.d

/-- The plaintext modulus t = 2^logt. -/
def plainModulus (p : PirParams) : Nat := 2 ^ p.logt

/-- Modelled from the spec (§4.4, missing pir_client.cpp): get_fv_index —
the plaintext-unit index of an item,
floor(item_index * item_size / plaintext_capacity_bytes); valid only for
item_index < item_count, else IndexOutOfRange (spec §7). -/
def get_fv_index (p : PirParams) (item_index item_size : Nat) : Except PirError Nat :=
  if item_index < p.ele_num then
    Except.ok (item_index * item_size / plainCapacity p)
  else
    Except.error PirError.IndexOutOfRange

/-- Modelled from the spec (§3, §4.4, missing pir_client.cpp): get_fv_offset —
the item's position modulo elements-per-plaintext; valid only for
item_index < item_count, else IndexOutOfRange (spec §7). -/
def get_fv_offset (p : PirParams) (item_index item_size : Nat) : Except PirError Nat :=
  if item_index < p.ele_num then
    Except.ok (item_index % (plainCapacity p / item_size))
  else
    Except.error PirError.IndexOutOfRange

/-- Ideal model of one compressed query ciphertext: the hypercube coordinate
it encodes, bound to the identifier of the client key material that produced
it. The encryption scheme itself is an external collaborator (spec §1, §6),
so a ciphertext is modelled by its plaintext content plus key binding. -/
structure QueryCt where
  coord : Nat
  keyId : Nat
deriving DecidableEq

/-- A query: exactly d compressed ciphertexts, one per dimension (spec §3). -/
abbrev PirQuery := List QueryCt

/-- Modelled from the spec (§4.4, missing pir_client.cpp): generate_query —
decompose the plaintext-unit index into its d-tuple hypercube coordinate and
produce one compressed ciphertext per dimension under the client's key. -/
def generate_query (p : PirParams) (keyId fvIndex : Nat) : PirQuery :=
  (decomposeIndex fvIndex (pirDims p)).map fun c => ⟨c, keyId⟩

/-- Modelled from the spec (§4.2, missing pir.cpp / pir_server.cpp): the
database encoder — pack consecutive raw item bytes into plaintext units of
plainCapacity bytes each, pad the hypercube with zero-filled units up to
Π n_i, and convert every unit to ring coefficients. -/
def encodeDatabase (p : PirParams) (raw : List Nat) : List (List Nat) :=
  (chunksN (plainCapacity p) (pirDims p).prod
    (raw ++ List.replicate ((pirDims p).prod * plainCapacity p - raw.length) 0)).map
    (bytes_to_coeffs p.logt)

/-- The PIR server state (spec §4.3, §9): the encoded database hypercube,
the client-id → automorphism-key registry, and the seven cumulative
per-phase timing counters the driver reads (src/main.cpp lines 117-118,
139-146). -/
structure PIRServer where
  db : List (List Nat)
  galois : Nat → Option Nat
  expansion_time : Nat
  query_ntt_time : Nat
  mult_time : Nat
  add_time : Nat
  inter_db_construction_time : Nat
  inter_db_ntt_time : Nat
  inv_ntt_time : Nat

/-- Modelled from the spec (§4.3, missing pir_server.cpp): set_galois_key —
register automorphism key material for a client id, overwriting any prior
key for that id. -/
def set_galois_key (s : PIRServer) (client_id key : Nat) : PIRServer :=
  { s with galois := fun c => if c = client_id then some key else s.galois c }

/-- Modelled from the spec (§4.3, missing pir_server.cpp): set_database
followed by preprocess_database — encode the raw bytes and install the
encoded hypercube. -/
def set_database (p : PirParams) (s : PIRServer) (raw : List Nat) : PIRServer :=
  { s with db := encodeDatabase p raw }

/-- The per-phase durations measured during one generate_reply call.
Wall-clock time is environment input, outside the shallow embedding, so it
is passed in explicitly. -/
structure PhaseCosts where
  expansion : Nat
  query_ntt : Nat
  mult : Nat
  add : Nat
  inter_db_construction : Nat
  inter_db_ntt : Nat
  inv_ntt : Nat

/-- Add one call's measured durations to the server's cumulative counters. -/
def addCosts (s : PIRServer) (c : PhaseCosts) : PIRServer :=
  { s with
    expansion_time := s.expansion_time + c.expansion
    query_ntt_time := s.query_ntt_time + c.query_ntt
    mult_time := s.mult_time + c.mult
    add_time := s.add_time + c.add
    inter_db_construction_time := s.inter_db_construction_time + c.inter_db_construction
    inter_db_ntt_time := s.inter_db_ntt_time + c.inter_db_ntt
    inv_ntt_time := s.inv_ntt_time + c.inv_ntt }

/-- Modelled from the spec (§4.3 step 1, §9): expansion of one compressed
query ciphertext into its dimension's one-hot selection vector, using the
registered automorphism key. A key that does not match the ciphertext's
binding yields garbage that surfaces only as incorrect decode (spec §4.3),
modelled as the all-zero selection. -/
def expandDim (gk : Nat) (ct : QueryCt) (n : Nat) : List Nat :=
  if ct.keyId = gk then onehot ct.coord n else List.replicate n 0

/-- Modelled from the spec (§9): ExpandedQuery = expand(Query, key, dims). -/
def expandQuery (gk : Nat) (q : PirQuery) (ns : List Nat) : List (List Nat) :=
  List.zipWith (expandDim gk) q ns

/-- Modelled from the spec (§4.3, missing pir_server.cpp): generate_reply —
look up the client's automorphism key (KeyNotFound if unregistered), check
the query has exactly d ciphertexts (DimensionMismatch otherwise), expand
the query into one-hot selection vectors, run the multi-round dimension
reduction against the encoded hypercube, return the single remaining
plaintext as the reply, and add this call's measured per-phase durations to
the cumulative timing counters. -/
def generate_reply (p : PirParams) (s : PIRServer) (q : PirQuery) (client_id : Nat)
    (cost : PhaseCosts) : Except PirError (List Nat × PIRServer) :=
  match s.galois client_id with
  | none => Except.error PirError.KeyNotFound
  | some gk =>
      if q.length = p.d then
        Except.ok
          ((reduceAll (plainModulus p) p.N (expandQuery gk q (pirDims p)) s.db).headD
            (zeroPoly p.N),
           addCosts s cost)
      else Except.error PirError.DimensionMismatch

/-- Modelled from the spec (§4.4, missing pir_client.cpp): decode_reply —
ideal decryption of the reply followed by the inverse coefficient unpacking
into a byte buffer of N*logt/8 bytes. -/
def decode_reply (p : PirParams) (reply : List Nat) : List Nat :=
  coeffs_to_bytes p.logt reply

/-- The driver's element extraction (src/main.cpp lines 104-109): read
item_size bytes starting at offset * item_size from the decoded buffer. -/
def extractElement (elems : List Nat) (offset size : Nat) : List Nat :=
  (elems.drop (offset * size)).take size

/-- The concrete parameters the driver passes to gen_params
(src/main.cpp lines 17-23): 96151 items of 30*512 = 15360 bytes,
N = 4096, logt = 30, d = 2. -/
def driverParams : PirParams :=
  { N := 4096, logt := 30, d := 2, ele_num := 96151, ele_size := 30 * 512 }

theorem expandQuery_own_key (gk : Nat) (cs ns : List Nat) :
    expandQuery gk (cs.map fun c => (⟨c, gk⟩ : QueryCt)) ns
      = List.zipWith onehot cs ns := by
  induction cs generalizing ns with
  | nil => rfl
  | cons c cs ih =>
      cases ns with
      | nil => rfl
      | cons n ns =>
          simp only [List.map_cons, expandQuery, List.zipWith_cons_cons, expandDim, if_pos]
          exact congrArg (onehot c n :: ·) (ih ns)

theorem take_drop_of_append (raw rep : List α) (s k : Nat) (h : s + k ≤ raw.length) :
    ((raw ++ rep).drop s).take k = (raw.drop s).take k := by
  rw [List.drop_append_of_le_length (by omega),
    List.take_append_of_le_length (by rw [List.length_drop]; omega)]

theorem extract_from_slice (l : List α) (base cap off k : Nat)
    (hoff : off + k ≤ cap) :
    (((l.drop base).take cap).drop off).take k = (l.drop (base + off)).take k := by
  rw [List.drop_take, List.take_take, List.drop_drop]
  have hmin : k ⊓ (cap - off) = k := by omega
  rw [hmin]

theorem pir_round_trip_core (p : PirParams) (s0 : PIRServer) (raw : List Nat)
    (i gk cid : Nat) (cost : PhaseCosts)
    (hN : 0 < p.N) (hlogt : 0 < p.logt) (h8 : 8 ∣ p.N * p.logt)
    (hsz : 0 < p.ele_size) (hdvd : p.ele_size ∣ plainCapacity p) (hd : 0 < p.d)
    (hraw : raw.length = p.ele_num * p.ele_size) (hb : ∀ b ∈ raw, b < 256)
    (hi : i < p.ele_num) :
    generate_reply p (set_database p (set_galois_key s0 cid gk) raw)
        (generate_query p gk (i * p.ele_size / plainCapacity p)) cid cost
      = Except.ok ((encodeDatabase p raw).getD (i * p.ele_size / plainCapacity p) [],
          addCosts (set_database p (set_galois_key s0 cid gk) raw) cost) ∧
    extractElement
        (decode_reply p ((encodeDatabase p raw).getD (i * p.ele_size / plainCapacity p) []))
        (i % (plainCapacity p / p.ele_size)) p.ele_size
      = (raw.drop (i * p.ele_size)).take p.ele_size := by
  have hcap : 0 < plainCapacity p := by
    rcases h8 with ⟨k, hk⟩
    have h1 : 0 < p.N * p.logt := Nat.mul_pos hN hlogt
    rw [hk] at h1
    rw [plainCapacity, hk, Nat.mul_div_cancel_left k (by omega)]
    omega
  have h8cap : 8 * plainCapacity p = p.N * p.logt := Nat.mul_div_cancel' h8
  have hele : plainCapacity p / p.ele_size * p.ele_size = plainCapacity p :=
    Nat.div_mul_cancel hdvd
  have hele_pos : 0 < plainCapacity p / p.ele_size := by
    rcases Nat.eq_zero_or_pos (plainCapacity p / p.ele_size) with h0 | h0
    · rw [h0, Nat.zero_mul] at hele
      omega
    · exact h0
  have hfv_eq : i * p.ele_size / plainCapacity p = i / (plainCapacity p / p.ele_size) := by
    conv_lhs => rw [← hele]
    exact Nat.mul_div_mul_right i _ hsz
  have hfvnum : i * p.ele_size / plainCapacity p < numPlaintexts p := by
    simp only [numPlaintexts]
    exact div_lt_cldiv _ _ _ hcap ((Nat.mul_lt_mul_right hsz).mpr hi)
  have hdims_len : (pirDims p).length = p.d := length_hypercubeDims _ _
  have hprod : numPlaintexts p ≤ (pirDims p).prod := le_prod_hypercubeDims _ _ hd
  have hfvprod : i * p.ele_size / plainCapacity p < (pirDims p).prod :=
    lt_of_lt_of_le hfvnum hprod
  have hraw_le : raw.length ≤ (pirDims p).prod * plainCapacity p := by
    rw [hraw]
    calc p.ele_num * p.ele_size ≤ numPlaintexts p * plainCapacity p := by
          simp only [numPlaintexts]
          exact le_cldiv_mul _ _ hcap
      _ ≤ (pirDims p).prod * plainCapacity p := Nat.mul_le_mul_right _ hprod
  have hpadded_len :
      (raw ++ List.replicate ((pirDims p).prod * plainCapacity p - raw.length) 0).length
        = (pirDims p).prod * plainCapacity p := by
    simp only [List.length_append, List.length_replicate]
    omega
  have hpadded_lt :
      ∀ b ∈ raw ++ List.replicate ((pirDims p).prod * plainCapacity p - raw.length) 0,
        b < 256 := by
    intro b hbm
    rcases List.mem_append.mp hbm with h | h
    · exact hb b h
    · rw [List.eq_of_mem_replicate h]
      omega
  have hdb_len : (encodeDatabase p raw).length = (pirDims p).prod := by
    simp [encodeDatabase, length_chunksN]
  have hchunk_len : ∀ c ∈ chunksN (plainCapacity p) (pirDims p).prod
      (raw ++ List.replicate ((pirDims p).prod * plainCapacity p - raw.length) 0),
      c.length = plainCapacity p :=
    length_mem_chunksN _ _ _ hpadded_len
  have hdb_N : ∀ pl ∈ encodeDatabase p raw, pl.length = p.N := by
    intro pl hpl
    simp only [encodeDatabase, List.mem_map] at hpl
    rcases hpl with ⟨c, hc, rfl⟩
    rw [length_bytes_to_coeffs, hchunk_len c hc, h8cap, Nat.mul_div_cancel _ hlogt]
  have hdb_lt : ∀ pl ∈ encodeDatabase p raw, ∀ a ∈ pl, a < plainModulus p := by
    intro pl hpl
    simp only [encodeDatabase, List.mem_map] at hpl
    rcases hpl with ⟨c, hc, rfl⟩
    intro a ha
    simp only [plainModulus]
    exact bytes_to_coeffs_lt p.logt c
      (by rw [hchunk_len c hc, h8cap]; exact dvd_mul_left _ _) a ha
  have hgal : (set_database p (set_galois_key s0 cid gk) raw).galois cid = some gk := by
    simp [set_database, set_galois_key]
  have hq_len : (generate_query p gk (i * p.ele_size / plainCapacity p)).length = p.d := by
    simp [generate_query, length_decomposeIndex, hdims_len]
  have hexp : expandQuery gk (generate_query p gk (i * p.ele_size / plainCapacity p)) (pirDims p)
      = List.zipWith onehot
          (decomposeIndex (i * p.ele_size / plainCapacity p) (pirDims p)) (pirDims p) := by
    rw [generate_query]
    exact expandQuery_own_key gk _ _
  have hsel : reduceAll (plainModulus p) p.N
      (expandQuery gk (generate_query p gk (i * p.ele_size / plainCapacity p)) (pirDims p))
      (encodeDatabase p raw)
      = [(encodeDatabase p raw).getD (i * p.ele_size / plainCapacity p) []] := by
    rw [hexp, reduceAll_select _ _ _ _ _ (decomposeIndex_lt _ _ hfvprod) hdb_len hdb_N hdb_lt,
      composeIndex_decomposeIndex _ _ hfvprod]
  constructor
  · have hgal2 : (set_galois_key s0 cid gk).galois cid = some gk := by
      simp [set_galois_key]
    simp only [generate_reply, set_database, hgal2, hq_len, if_pos]
    rw [hsel]
    rfl
  · have hfv_db : i * p.ele_size / plainCapacity p < (encodeDatabase p raw).length := by
      rw [hdb_len]
      exact hfvprod
    have hchunkfv : (encodeDatabase p raw).getD (i * p.ele_size / plainCapacity p) []
        = bytes_to_coeffs p.logt
          (((raw ++ List.replicate ((pirDims p).prod * plainCapacity p - raw.length) 0).drop
            (i * p.ele_size / plainCapacity p * plainCapacity p)).take (plainCapacity p)) := by
      rw [List.getD_eq_getElem _ [] hfv_db]
      simp only [encodeDatabase, List.getElem_map]
      congr 1
      rw [← List.getD_eq_getElem _ []
        (by rw [length_chunksN]; exact hfvprod)]
      exact getD_chunksN _ _ _ _ hfvprod
    have hbase_le : i * p.ele_size / plainCapacity p * plainCapacity p + plainCapacity p
        ≤ (pirDims p).prod * plainCapacity p := by
      have h1 : (i * p.ele_size / plainCapacity p + 1) * plainCapacity p
          ≤ (pirDims p).prod * plainCapacity p :=
        Nat.mul_le_mul_right _ (by omega)
      rw [Nat.succ_mul] at h1
      omega
    have hslice_len :
        (((raw ++ List.replicate ((pirDims p).prod * plainCapacity p - raw.length) 0).drop
          (i * p.ele_size / plainCapacity p * plainCapacity p)).take (plainCapacity p)).length
          = plainCapacity p := by
      simp only [List.length_take, List.length_drop, hpadded_len]
      omega
    have hslice_lt :
        ∀ b ∈ ((raw ++ List.replicate ((pirDims p).prod * plainCapacity p - raw.length) 0).drop
          (i * p.ele_size / plainCapacity p * plainCapacity p)).take (plainCapacity p),
          b < 256 := by
      intro b hbm
      exact hpadded_lt b (List.mem_of_mem_drop (List.mem_of_mem_take hbm))
    have hdecode : decode_reply p ((encodeDatabase p raw).getD (i * p.ele_size / plainCapacity p) [])
        = ((raw ++ List.replicate ((pirDims p).prod * plainCapacity p - raw.length) 0).drop
          (i * p.ele_size / plainCapacity p * plainCapacity p)).take (plainCapacity p) := by
      rw [hchunkfv, decode_reply]
      exact coeffs_to_bytes_bytes_to_coeffs p.logt _
        (by rw [hslice_len, h8cap]; exact dvd_mul_left _ _) hslice_lt
    have hmod_lt : i % (plainCapacity p / p.ele_size) < plainCapacity p / p.ele_size :=
      Nat.mod_lt _ hele_pos
    have hoff_le : i % (plainCapacity p / p.ele_size) * p.ele_size + p.ele_size
        ≤ plainCapacity p := by
      have h1 : (i % (plainCapacity p / p.ele_size) + 1) * p.ele_size
          ≤ plainCapacity p / p.ele_size * p.ele_size :=
        Nat.mul_le_mul_right _ (by omega)
      rw [Nat.succ_mul, hele] at h1
      omega
    have harel : i * p.ele_size / plainCapacity p * plainCapacity p
        + i % (plainCapacity p / p.ele_size) * p.ele_size = i * p.ele_size := by
      have h1 : plainCapacity p / p.ele_size * (i / (plainCapacity p / p.ele_size))
          + i % (plainCapacity p / p.ele_size) = i := Nat.div_add_mod i _
      calc i * p.ele_size / plainCapacity p * plainCapacity p
            + i % (plainCapacity p / p.ele_size) * p.ele_size
          = i / (plainCapacity p / p.ele_size) * (plainCapacity p / p.ele_size * p.ele_size)
            + i % (plainCapacity p / p.ele_size) * p.ele_size := by rw [hfv_eq, hele]
        _ = (plainCapacity p / p.ele_size * (i / (plainCapacity p / p.ele_size))
            + i % (plainCapacity p / p.ele_size)) * p.ele_size := by ring
        _ = i * p.ele_size := by rw [h1]
    have hitem_le : i * p.ele_size + p.ele_size ≤ raw.length := by
      rw [hraw]
      have h1 : (i + 1) * p.ele_size ≤ p.ele_num * p.ele_size :=
        Nat.mul_le_mul_right _ (by omega)
      rw [Nat.succ_mul] at h1
      omega
    rw [hdecode, extractElement, extract_from_slice _ _ _ _ _ hoff_le, harel,
      take_drop_of_append _ _ _ _ hitem_le]

/-- Small concrete parameter set used to instantiate the theorems below:
N = 8, logt = 8 (capacity 8 bytes), d = 2, two items of 4 bytes. -/
def sampleParams : PirParams :=
  { N := 8, logt := 8, d := 2, ele_num := 2, ele_size := 4 }

/-- A concrete 2-item raw database for the sample parameters. -/
def sampleRaw : List Nat := [1, 2, 3, 4, 5, 6, 7, 8]

/-- A fresh server with no database and no registered keys. -/
def sampleServer : PIRServer :=
  { db := [], galois := fun _ => none, expansion_time := 0, query_ntt_time := 0,
    mult_time := 0, add_time := 0, inter_db_construction_time := 0,
    inter_db_ntt_time := 0, inv_ntt_time := 0 }

/-- Concrete measured per-phase durations for one call. -/
def sampleCost : PhaseCosts :=
  { expansion := 1, query_ntt := 2, mult := 3, add := 4,
    inter_db_construction := 5, inter_db_ntt := 6, inv_ntt := 7 }

/-- C2: with the driver's parameters (item_count = 96151, item_size = 15360,
N = 4096, logt = 30, d = 2), the derived parameters satisfy: plaintext
capacity = 4096*30/8 = 15360 bytes exactly, elements-per-plaintext = 1,
expansion ratio = 1, total plaintext-unit count = 96151, and hypercube
dimensions (n_0, n_1) with n_0 * n_1 ≥ 96151; retrieving any index returns
its original 15360-byte item unchanged. -/
theorem C2_scenarioA :
    driverParams.ele_size = 15360 ∧
    plainCapacity driverParams = 4096 * 30 / 8 ∧
    plainCapacity driverParams = 15360 ∧
    elementsPerPlaintext driverParams = 1 ∧
    expansionFactor driverParams = 1 ∧
    numPlaintexts driverParams = 96151 ∧
    (pirDims driverParams).length = 2 ∧
    96151 ≤ (pirDims driverParams).prod ∧
    ∀ (s0 : PIRServer) (raw : List Nat) (i gk cid : Nat) (cost : PhaseCosts),
      raw.length = 96151 * 15360 → (∀ b ∈ raw, b < 256) → i < 96151 →
      ∃ fv off reply s2,
        get_fv_index driverParams i driverParams.ele_size = Except.ok fv ∧
        get_fv_offset driverParams i driverParams.ele_size = Except.ok off ∧
        generate_reply driverParams
          (set_database driverParams (set_galois_key s0 cid gk) raw)
          (generate_query driverParams gk fv) cid cost = Except.ok (reply, s2) ∧
        extractElement (decode_reply driverParams reply) off 15360
          = (raw.drop (i * 15360)).take 15360 := by
  refine ⟨by decide, by decide, by decide, by decide, by decide, by decide,
    length_hypercubeDims _ _, ?_, ?_⟩
  · have h1 : numPlaintexts driverParams ≤ (pirDims driverParams).prod :=
      le_prod_hypercubeDims _ _ (by decide)
    have h2 : numPlaintexts driverParams = 96151 := by decide
    omega
  · intro s0 raw i gk cid cost hraw hb hi
    have hi2 : i < driverParams.ele_num := hi
    obtain ⟨h1, h2⟩ := pir_round_trip_core driverParams s0 raw i gk cid cost
      (by decide) (by decide) (by decide) (by decide) (by decide) (by decide)
      (by rw [hraw]; decide) hb hi2
    refine ⟨i * driverParams.ele_size / plainCapacity driverParams,
      i % (plainCapacity driverParams / driverParams.ele_size), _, _, ?_, ?_, h1, ?_⟩
    · simp [get_fv_index, hi2]
    · simp [get_fv_offset, hi2]
    · have hsz : driverParams.ele_size = 15360 := by decide
      rw [← hsz]
      exact h2

/-- Witness for C2 at the all-zero database, item index 0. -/
theorem C2_scenarioA_witness :
    ∃ fv off reply s2,
      get_fv_index driverParams 0 driverParams.ele_size = Except.ok fv ∧
      get_fv_offset driverParams 0 driverParams.ele_size = Except.ok off ∧
      generate_reply driverParams
        (set_database driverParams (set_galois_key sampleServer 0 9) (List.replicate (96151 * 15360) 0))
        (generate_query driverParams 9 fv) 0 sampleCost = Except.ok (reply, s2) ∧
      extractElement (decode_reply driverParams reply) off 15360
        = ((List.replicate (96151 * 15360) (0 : Nat)).drop (0 * 15360)).take 15360 := by
  obtain ⟨-, -, -, -, -, -, -, -, h⟩ := C2_scenarioA
  exact h sampleServer (List.replicate (96151 * 15360) 0) 0 9 0 sampleCost
    (by rw [List.length_replicate]) (by intro b hb; rw [List.eq_of_mem_replicate hb]; omega)
    (by decide)

/-- C3: get_fv_index and get_fv_offset are pure functions with, for every
item_index < item_count, get_fv_index(item_index, item_size) =
floor(item_index * item_size / plaintext_capacity_bytes) and
get_fv_offset(item_index, item_size) = item position modulo
elements-per-plaintext; for item_index ≥ item_count they fail with
IndexOutOfRange. -/
theorem C3_fv_index_offset (p : PirParams) (i sz : Nat) :
    (i < p.ele_num →
      get_fv_index p i sz = Except.ok (i * sz / plainCapacity p) ∧
      get_fv_offset p i sz = Except.ok (i % (plainCapacity p / sz)) ∧
      get_fv_offset p i p.ele_size = Except.ok (i % elementsPerPlaintext p)) ∧
    (p.ele_num ≤ i →
      get_fv_index p i sz = Except.error PirError.IndexOutOfRange ∧
      get_fv_offset p i sz = Except.error PirError.IndexOutOfRange) := by
  constructor
  · intro h
    refine ⟨?_, ?_, ?_⟩ <;> simp [get_fv_index, get_fv_offset, elementsPerPlaintext, h]
  · intro h
    have h2 : ¬ i < p.ele_num := by omega
    exact ⟨by simp [get_fv_index, h2], by simp [get_fv_offset, h2]⟩

/-- Witness for C3 at the sample parameters: index 1 is in range, index 5
is rejected. -/
theorem C3_fv_index_offset_witness :
    get_fv_index sampleParams 1 sampleParams.ele_size = Except.ok 0 ∧
    get_fv_offset sampleParams 1 sampleParams.ele_size = Except.ok 1 ∧
    get_fv_index sampleParams 5 sampleParams.ele_size
      = Except.error PirError.IndexOutOfRange ∧
    get_fv_offset sampleParams 5 sampleParams.ele_size
      = Except.error PirError.IndexOutOfRange := by
  obtain ⟨h1, h2, -⟩ := (C3_fv_index_offset sampleParams 1 sampleParams.ele_size).1 (by decide)
  obtain ⟨h4, h5⟩ := (C3_fv_index_offset sampleParams 5 sampleParams.ele_size).2 (by decide)
  exact ⟨h1, h2, h4, h5⟩

/-- C4: coefficient unpacking is the exact inverse of the encoder's
byte-to-coefficient packing: for every byte buffer of length N*logt/8,
packing at logt bits per ring coefficient and then unpacking
(decode_reply, i.e. coeffs_to_bytes) returns the original bytes; the packed
polynomial has N coefficients, and decode_reply produces a byte buffer of
length N*logt/8 per plaintext unit. -/
theorem C4_packing_inverse (p : PirParams) (bytes : List Nat)
    (hlogt : 0 < p.logt) (h8 : 8 ∣ p.N * p.logt)
    (hlen : bytes.length = p.N * p.logt / 8) (hb : ∀ b ∈ bytes, b < 256) :
    decode_reply p (bytes_to_coeffs p.logt bytes) = bytes ∧
    (bytes_to_coeffs p.logt bytes).length = p.N ∧
    ∀ reply : List Nat, reply.length = p.N →
      (decode_reply p reply).length = p.N * p.logt / 8 := by
  have h8len : 8 * bytes.length = p.N * p.logt := by
    rw [hlen]
    exact Nat.mul_div_cancel' h8
  have hdvd : p.logt ∣ 8 * bytes.length := by
    rw [h8len]
    exact dvd_mul_left _ _
  refine ⟨coeffs_to_bytes_bytes_to_coeffs p.logt bytes hdvd hb, ?_, ?_⟩
  · rw [length_bytes_to_coeffs, h8len, Nat.mul_div_cancel _ hlogt]
  · intro reply hreply
    rw [decode_reply, length_coeffs_to_bytes, hreply]

/-- Witness for C4: the 8-byte buffer [1..8] at the sample parameters. -/
theorem C4_packing_inverse_witness :
    decode_reply sampleParams (bytes_to_coeffs sampleParams.logt sampleRaw) = sampleRaw ∧
    (bytes_to_coeffs sampleParams.logt sampleRaw).length = sampleParams.N ∧
    ∀ reply : List Nat, reply.length = sampleParams.N →
      (decode_reply sampleParams reply).length = sampleParams.N * sampleParams.logt / 8 :=
  C4_packing_inverse sampleParams sampleRaw (by decide) (by decide) (by decide) (by decide)

/-- C5: generate_reply is deterministic: two calls with identical query
content, the same encoded database and the same registered key entry for
the given client_id produce bit-identical replies, whatever the timing
counters or other registry entries — the result depends only on the query
and the registered key, with no server-side randomness. -/
theorem C5_deterministic (p : PirParams) (s1 s2 : PIRServer) (q : PirQuery)
    (cid : Nat) (c1 c2 : PhaseCosts)
    (hdb : s1.db = s2.db) (hkey : s1.galois cid = s2.galois cid) :
    Except.map Prod.fst (generate_reply p s1 q cid c1)
      = Except.map Prod.fst (generate_reply p s2 q cid c2) := by
  simp only [generate_reply, hkey, hdb]
  cases s2.galois cid with
  | none => rfl
  | some gk =>
      by_cases hq : q.length = p.d <;> simp [hq, Except.map]

/-- Witness for C5: two servers with the same database and key entry but
different counters and an extra key under another client id. -/
theorem C5_deterministic_witness :
    Except.map Prod.fst (generate_reply sampleParams
      (set_database sampleParams (set_galois_key sampleServer 5 77) sampleRaw)
      (generate_query sampleParams 77 0) 5 sampleCost)
    = Except.map Prod.fst (generate_reply sampleParams
      (addCosts (set_database sampleParams
        (set_galois_key (set_galois_key sampleServer 3 11) 5 77) sampleRaw) sampleCost)
      (generate_query sampleParams 77 0) 5
      { expansion := 0, query_ntt := 0, mult := 0, add := 0,
        inter_db_construction := 0, inter_db_ntt := 0, inv_ntt := 0 }) :=
  C5_deterministic sampleParams _ _ (generate_query sampleParams 77 0) 5 _ _
    (by simp [set_database, addCosts, set_galois_key]) (by simp [set_database, addCosts, set_galois_key])

/-- C6: generate_reply fails with KeyNotFound when no automorphism key was
registered for the client_id, and with DimensionMismatch when the query
does not contain exactly d ciphertexts; set_galois_key for an
already-registered client_id fully replaces the prior key, so subsequent
reply generations behave exactly as with only the new key. -/
theorem C6_key_handling (p : PirParams) (s : PIRServer) (q : PirQuery)
    (cid k1 k2 : Nat) (cost : PhaseCosts) :
    (s.galois cid = none →
      generate_reply p s q cid cost = Except.error PirError.KeyNotFound) ∧
    (s.galois cid ≠ none → q.length ≠ p.d →
      generate_reply p s q cid cost = Except.error PirError.DimensionMismatch) ∧
    set_galois_key (set_galois_key s cid k1) cid k2 = set_galois_key s cid k2 ∧
    (set_galois_key (set_galois_key s cid k1) cid k2).galois cid = some k2 ∧
    generate_reply p (set_galois_key (set_galois_key s cid k1) cid k2) q cid cost
      = generate_reply p (set_galois_key s cid k2) q cid cost := by
  have hrepl : set_galois_key (set_galois_key s cid k1) cid k2 = set_galois_key s cid k2 := by
    simp only [set_galois_key]
    congr 1
    funext c
    by_cases hc : c = cid <;> simp [hc]
  refine ⟨?_, ?_, hrepl, ?_, ?_⟩
  · intro h
    simp [generate_reply, h]
  · intro h hq
    rcases Option.ne_none_iff_exists.mp h with ⟨gk, hg⟩
    simp [generate_reply, ← hg, hq]
  · rw [hrepl]
    simp [set_galois_key]
  · rw [hrepl]

/-- Witness for C6: a fresh server has no key for client 5; a query of the
wrong length is rejected once a key is registered; double registration
equals single registration of the second key. -/
theorem C6_key_handling_witness :
    generate_reply sampleParams sampleServer [] 5 sampleCost
      = Except.error PirError.KeyNotFound ∧
    generate_reply sampleParams (set_galois_key sampleServer 5 77) [] 5 sampleCost
      = Except.error PirError.DimensionMismatch ∧
    set_galois_key (set_galois_key sampleServer 5 11) 5 77
      = set_galois_key sampleServer 5 77 ∧
    (set_galois_key (set_galois_key sampleServer 5 11) 5 77).galois 5 = some 77 ∧
    generate_reply sampleParams (set_galois_key (set_galois_key sampleServer 5 11) 5 77) [] 5 sampleCost
      = generate_reply sampleParams (set_galois_key sampleServer 5 77) [] 5 sampleCost := by
  obtain ⟨h1, h2, h3, h4, h5⟩ := C6_key_handling sampleParams sampleServer [] 5 11 77 sampleCost
  obtain ⟨g1, g2, -, -, -⟩ := C6_key_handling sampleParams (set_galois_key sampleServer 5 77) [] 5 11 77 sampleCost
  exact ⟨h1 rfl, g2 (by simp [set_galois_key]) (by decide), h3, h4, h5⟩

/-- C7: for any derived PirParameters, the hypercube volume Π n_i is at
least the total plaintext-unit count, and every valid plaintext-unit index
decomposes via mixed-radix decomposition against (n_0, ..., n_{d-1}) to a
unique d-tuple coordinate with each component in [0, n_i). -/
theorem C7_dimension_invariants (p : PirParams) (hd : 0 < p.d) :
    numPlaintexts p ≤ (pirDims p).prod ∧
    (pirDims p).length = p.d ∧
    ∀ j, j < numPlaintexts p →
      List.Forall₂ (· < ·) (decomposeIndex j (pirDims p)) (pirDims p) ∧
      (decomposeIndex j (pirDims p)).length = p.d ∧
      composeIndex (decomposeIndex j (pirDims p)) (pirDims p) = j ∧
      ∀ cs, List.Forall₂ (· < ·) cs (pirDims p) →
        composeIndex cs (pirDims p) = j → cs = decomposeIndex j (pirDims p) := by
  have hprod : numPlaintexts p ≤ (pirDims p).prod := le_prod_hypercubeDims _ _ hd
  refine ⟨hprod, length_hypercubeDims _ _, ?_⟩
  intro j hj
  have hjp : j < (pirDims p).prod := lt_of_lt_of_le hj hprod
  refine ⟨decomposeIndex_lt j _ hjp, ?_, composeIndex_decomposeIndex j _ hjp, ?_⟩
  · rw [length_decomposeIndex]
    exact length_hypercubeDims _ _
  · intro cs hcs hcomp
    rw [← hcomp, decomposeIndex_composeIndex cs _ hcs]

/-- Witness for C7 at the driver's parameters, plaintext-unit index 96150. -/
theorem C7_dimension_invariants_witness :
    numPlaintexts driverParams ≤ (pirDims driverParams).prod ∧
    List.Forall₂ (· < ·) (decomposeIndex 96150 (pirDims driverParams)) (pirDims driverParams) ∧
    composeIndex (decomposeIndex 96150 (pirDims driverParams)) (pirDims driverParams) = 96150 := by
  obtain ⟨h1, -, h3⟩ := C7_dimension_invariants driverParams (by decide)
  obtain ⟨g1, -, g3, -⟩ := h3 96150 (by decide)
  exact ⟨h1, g1, g3⟩

/-- C8: generate_reply updates exactly the seven cumulative per-phase timing
counters (expansion_time, query_ntt_time, mult_time, add_time,
inter_db_construction_time, inter_db_ntt_time, inv_ntt_time), each by the
measured duration of its phase, and leaves the database and key registry
untouched; the counters are purely observational — the reply value does not
depend on them. -/
theorem C8_timing_counters (p : PirParams) (s : PIRServer) (q : PirQuery)
    (cid : Nat) (cost : PhaseCosts) :
    (∀ r s2, generate_reply p s q cid cost = Except.ok (r, s2) →
      s2.db = s.db ∧ s2.galois = s.galois ∧
      s2.expansion_time = s.expansion_time + cost.expansion ∧
      s2.query_ntt_time = s.query_ntt_time + cost.query_ntt ∧
      s2.mult_time = s.mult_time + cost.mult ∧
      s2.add_time = s.add_time + cost.add ∧
      s2.inter_db_construction_time = s.inter_db_construction_time + cost.inter_db_construction ∧
      s2.inter_db_ntt_time = s.inter_db_ntt_time + cost.inter_db_ntt ∧
      s2.inv_ntt_time = s.inv_ntt_time + cost.inv_ntt) ∧
    ∀ e1 e2 e3 e4 e5 e6 e7 : Nat,
      Except.map Prod.fst (generate_reply p
        { db := s.db, galois := s.galois, expansion_time := e1, query_ntt_time := e2,
          mult_time := e3, add_time := e4, inter_db_construction_time := e5,
          inter_db_ntt_time := e6, inv_ntt_time := e7 } q cid cost)
        = Except.map Prod.fst (generate_reply p s q cid cost) := by
  constructor
  · intro r s2 h
    cases hg : s.galois cid with
    | none => simp [generate_reply, hg] at h
    | some gk =>
        by_cases hq : q.length = p.d
        · simp only [generate_reply, hg, hq, if_true, eq_self_iff_true,
            Except.ok.injEq, Prod.mk.injEq] at h
          obtain ⟨-, h2⟩ := h
          subst h2
          simp [addCosts]
        · simp [generate_reply, hg, hq] at h
  · intro e1 e2 e3 e4 e5 e6 e7
    simp only [generate_reply]
    cases hg : s.galois cid with
    | none => rfl
    | some gk => by_cases hq : q.length = p.d <;> simp [hq, Except.map]

/-- Witness for C8: a successful call at the sample parameters. -/
theorem C8_timing_counters_witness :
    (addCosts (set_database sampleParams (set_galois_key sampleServer 5 77) sampleRaw)
        sampleCost).db
      = (set_database sampleParams (set_galois_key sampleServer 5 77) sampleRaw).db ∧
    (addCosts (set_database sampleParams (set_galois_key sampleServer 5 77) sampleRaw)
        sampleCost).expansion_time
      = (set_database sampleParams (set_galois_key sampleServer 5 77) sampleRaw).expansion_time
        + sampleCost.expansion ∧
    Except.map Prod.fst (generate_reply sampleParams
      { db := (set_database sampleParams (set_galois_key sampleServer 5 77) sampleRaw).db,
        galois := (set_database sampleParams (set_galois_key sampleServer 5 77) sampleRaw).galois,
        expansion_time := 41, query_ntt_time := 42, mult_time := 43, add_time := 44,
        inter_db_construction_time := 45, inter_db_ntt_time := 46, inv_ntt_time := 47 }
      (generate_query sampleParams 77 0) 5 sampleCost)
      = Except.map Prod.fst (generate_reply sampleParams
        (set_database sampleParams (set_galois_key sampleServer 5 77) sampleRaw)
        (generate_query sampleParams 77 0) 5 sampleCost) := by
  obtain ⟨h1, h2⟩ := C8_timing_counters sampleParams
    (set_database sampleParams (set_galois_key sampleServer 5 77) sampleRaw)
    (generate_query sampleParams 77 0) 5 sampleCost
  have hok : generate_reply sampleParams
      (set_database sampleParams (set_galois_key sampleServer 5 77) sampleRaw)
      (generate_query sampleParams 77 0) 5 sampleCost
      = Except.ok ((encodeDatabase sampleParams sampleRaw).getD 0 [],
          addCosts (set_database sampleParams (set_galois_key sampleServer 5 77) sampleRaw)
            sampleCost) := by
    have := (pir_round_trip_core sampleParams sampleServer sampleRaw 0 77 5 sampleCost
      (by decide) (by decide) (by decide) (by decide) (by decide) (by decide)
      (by decide) (by decide) (by decide)).1
    simpa using this
  obtain ⟨g1, -, g3, -⟩ := h1 _ _ hok
  exact ⟨g1, g3, h2 41 42 43 44 45 46 47⟩

/-- One byte store into a modelled buffer (db.get()[idx] = val). -/
def writeByte (f : Nat → Nat) (idx v : Nat) : Nat → Nat :=
  fun k => if k = idx then v else f k

/-- The driver's database-initialization loop (src/main.cpp lines 41-48):
for each item i and byte j, val = rand() % 256 is stored into both db and
db_copy at index i*size_per_item + j. The C library rand() stream is an
environment input, modelled as the function from draw number to drawn raw
value; both buffers start zero-initialized (make_unique of uint8_t[]
value-initializes). -/
def initDatabase (rand : Nat → Nat) (n sz : Nat) : (Nat → Nat) × (Nat → Nat) :=
  (List.range n).foldl
    (fun bufs i =>
      (List.range sz).foldl
        (fun bufs2 j =>
          (writeByte bufs2.1 (i * sz + j) (rand (i * sz + j) % 256),
           writeByte bufs2.2 (i * sz + j) (rand (i * sz + j) % 256)))
        bufs)
    (fun _ => 0, fun _ => 0)

theorem initDatabase_inner_eq (rand : Nat → Nat) (sz i : Nat) (l : List Nat)
    (bufs : (Nat → Nat) × (Nat → Nat)) (h : bufs.1 = bufs.2) :
    (l.foldl
      (fun bufs2 j =>
        (writeByte bufs2.1 (i * sz + j) (rand (i * sz + j) % 256),
         writeByte bufs2.2 (i * sz + j) (rand (i * sz + j) % 256)))
      bufs).1
    = (l.foldl
      (fun bufs2 j =>
        (writeByte bufs2.1 (i * sz + j) (rand (i * sz + j) % 256),
         writeByte bufs2.2 (i * sz + j) (rand (i * sz + j) % 256)))
      bufs).2 := by
  induction l generalizing bufs with
  | nil => exact h
  | cons a l ih =>
      simp only [List.foldl_cons]
      exact ih _ (by rw [h])

theorem initDatabase_eq (rand : Nat → Nat) (n sz : Nat) :
    (initDatabase rand n sz).1 = (initDatabase rand n sz).2 := by
  rw [initDatabase]
  have h : ∀ (l : List Nat) (bufs : (Nat → Nat) × (Nat → Nat)), bufs.1 = bufs.2 →
      (l.foldl
        (fun bufs i =>
          (List.range sz).foldl
            (fun bufs2 j =>
              (writeByte bufs2.1 (i * sz + j) (rand (i * sz + j) % 256),
               writeByte bufs2.2 (i * sz + j) (rand (i * sz + j) % 256)))
            bufs)
        bufs).1
      = (l.foldl
        (fun bufs i =>
          (List.range sz).foldl
            (fun bufs2 j =>
              (writeByte bufs2.1 (i * sz + j) (rand (i * sz + j) % 256),
               writeByte bufs2.2 (i * sz + j) (rand (i * sz + j) % 256)))
            bufs)
        bufs).2 := by
    intro l
    induction l with
    | nil => intro bufs h; exact h
    | cons a l ih =>
        intro bufs h
        simp only [List.foldl_cons]
        exact ih _ (initDatabase_inner_eq rand sz a (List.range sz) bufs h)
  exact h (List.range n) _ rfl

/-- C9: after the driver's database-initialization loop completes, the
buffer db handed to the server and the reference buffer db_copy used for
the final verification are byte-for-byte identical over all
number_of_items * size_per_item bytes — each drawn value is written once to
both. -/
theorem C9_db_copy_identical (rand : Nat → Nat) (n sz k : Nat)
    (hk : k < n * sz) :
    (initDatabase rand n sz).1 k = (initDatabase rand n sz).2 k := by
  rw [initDatabase_eq]

/-- Witness for C9 at a concrete random stream and shape. -/
theorem C9_db_copy_identical_witness :
    0 < 2 * 3 ∧ (initDatabase (fun k => 7 * k + 3) 2 3).1 0
      = (initDatabase (fun k => 7 * k + 3) 2 3).2 0 :=
  ⟨by decide, C9_db_copy_identical (fun k => 7 * k + 3) 2 3 0 (by decide)⟩

/-- The position of the first index i in [start, start + rem) at which the
predicate holds (the driver's early-exit comparison loop). -/
def firstMismatch (f : Nat → Bool) : Nat → Nat → Option Nat
  | _, 0 => none
  | start, rem + 1 =>
      if f start then some start else firstMismatch f (start + 1) rem

/-- The driver's verification loop and exit (src/main.cpp lines 107-115,
125-149): compare size_per_item bytes of the decoded buffer starting at
offset*size_per_item against the reference copy at ele_index*size_per_item;
at the first mismatching byte it prints the offending pair and
"Main: PIR result wrong!" and returns -1; if no byte mismatches it prints
"PIR result correct!" and returns 0. Modelled as the returned exit code
together with the index of the reported mismatch (none when the success
message is printed). -/
def verifyResult (elems dbc : Nat → Nat) (offset ele sz : Nat) : Int × Option Nat :=
  match firstMismatch (fun i => elems (offset * sz + i) != dbc (ele * sz + i)) 0 sz with
  | some i => (-1, some i)
  | none => (0, none)

theorem firstMismatch_none_iff (f : Nat → Bool) (rem start : Nat) :
    firstMismatch f start rem = none ↔
      ∀ i, start ≤ i → i < start + rem → f i = false := by
  induction rem generalizing start with
  | zero =>
      simp only [firstMismatch]
      constructor
      · intro _ i h1 h2
        omega
      · intro _
        trivial
  | succ rem ih =>
      simp only [firstMismatch]
      by_cases hf : f start
      · simp only [hf, if_true]
        constructor
        · intro h
          exact absurd h (by simp)
        · intro h
          have := h start (le_refl _) (by omega)
          rw [hf] at this
          exact absurd this (by simp)
      · rw [if_neg hf, ih]
        constructor
        · intro h i h1 h2
          rcases Nat.eq_or_lt_of_le h1 with h3 | h3
          · rw [← h3]
            exact Bool.eq_false_iff.mpr hf
          · exact h i h3 (by omega)
        · intro h i h1 h2
          exact h i (by omega) (by omega)

theorem firstMismatch_some (f : Nat → Bool) (rem start i0 : Nat)
    (h : firstMismatch f start rem = some i0) :
    start ≤ i0 ∧ i0 < start + rem ∧ f i0 = true ∧
      ∀ i, start ≤ i → i < i0 → f i = false := by
  induction rem generalizing start with
  | zero => simp [firstMismatch] at h
  | succ rem ih =>
      simp only [firstMismatch] at h
      by_cases hf : f start
      · rw [if_pos hf] at h
        have h0 : i0 = start := by
          have := (Option.some.injEq _ _).mp h
          omega
        subst h0
        exact ⟨le_refl _, by omega, hf, fun i h1 h2 => by omega⟩
      · rw [if_neg hf] at h
        obtain ⟨h1, h2, h3, h4⟩ := ih (start + 1) h
        refine ⟨by omega, by omega, h3, ?_⟩
        intro i hi1 hi2
        rcases Nat.eq_or_lt_of_le hi1 with h5 | h5
        · rw [← h5]
          exact Bool.eq_false_iff.mpr hf
        · exact h4 i (by omega) hi2

/-- C10: the driver's main returns -1 (printing "Main: PIR result wrong!")
if and only if at least one of the size_per_item decoded bytes starting at
offset*size_per_item differs from the corresponding byte of the reference
copy at ele_index*size_per_item, reporting the first mismatch only;
otherwise it prints "PIR result correct!" and returns 0. -/
theorem C10_verification (elems dbc : Nat → Nat) (off ele sz : Nat) :
    ((verifyResult elems dbc off ele sz).1 = -1 ↔
      ∃ i, i < sz ∧ elems (off * sz + i) ≠ dbc (ele * sz + i)) ∧
    ((verifyResult elems dbc off ele sz).1 = 0 ↔
      ∀ i, i < sz → elems (off * sz + i) = dbc (ele * sz + i)) ∧
    ∀ i0, (verifyResult elems dbc off ele sz).2 = some i0 →
      i0 < sz ∧ elems (off * sz + i0) ≠ dbc (ele * sz + i0) ∧
      ∀ i, i < i0 → elems (off * sz + i) = dbc (ele * sz + i) := by
  have hnone := firstMismatch_none_iff
    (fun i => elems (off * sz + i) != dbc (ele * sz + i)) sz 0
  constructor
  · rw [verifyResult]
    cases hm : firstMismatch (fun i => elems (off * sz + i) != dbc (ele * sz + i)) 0 sz with
    | none =>
        simp only
        constructor
        · intro h
          exact absurd h (by decide)
        · intro ⟨i, hi, hne⟩
          have := (hnone.mp hm) i (by omega) (by omega)
          simp only [bne_iff_ne, ne_eq] at this
          exact absurd (by simpa using this) hne
    | some i0 =>
        simp only
        obtain ⟨-, h2, h3, -⟩ := firstMismatch_some _ _ _ _ hm
        constructor
        · intro _
          refine ⟨i0, by omega, ?_⟩
          simpa using h3
        · intro _
          trivial
  constructor
  · rw [verifyResult]
    cases hm : firstMismatch (fun i => elems (off * sz + i) != dbc (ele * sz + i)) 0 sz with
    | none =>
        simp only
        constructor
        · intro _ i hi
          have := (hnone.mp hm) i (by omega) (by omega)
          simpa using this
        · intro _
          trivial
    | some i0 =>
        simp only
        obtain ⟨-, h2, h3, -⟩ := firstMismatch_some _ _ _ _ hm
        constructor
        · intro h
          exact absurd h (by decide)
        · intro h
          have := h i0 (by omega)
          simp only [bne_iff_ne, ne_eq] at h3
          exact absurd this h3
  · intro i0
    rw [verifyResult]
    cases hm : firstMismatch (fun i => elems (off * sz + i) != dbc (ele * sz + i)) 0 sz with
    | none => simp
    | some j0 =>
        simp only [Option.some.injEq]
        intro h
        subst h
        obtain ⟨-, h2, h3, h4⟩ := firstMismatch_some _ _ _ _ hm
        refine ⟨by omega, by simpa using h3, ?_⟩
        intro i hi
        have := h4 i (by omega) hi
        simpa using this

/-- Witness for C10: a concrete pair of buffers differing first at byte 2. -/
theorem C10_verification_witness :
    ((verifyResult (fun k => k) (fun k => if k = 2 then 9 else k) 0 0 4).1 = -1 ↔
      ∃ i, i < 4 ∧ (fun (k : Nat) => k) (0 * 4 + i)
        ≠ (fun k => if k = 2 then 9 else k) (0 * 4 + i)) ∧
    ((verifyResult (fun k => k) (fun k => if k = 2 then 9 else k) 0 0 4).2 = some 2 →
      2 < 4 ∧ (fun (k : Nat) => k) (0 * 4 + 2)
        ≠ (fun k => if k = 2 then 9 else k) (0 * 4 + 2)) := by
  obtain ⟨h1, -, h3⟩ := C10_verification (fun k => k)
    (fun k => if k = 2 then 9 else k) 0 0 4
  exact ⟨h1, fun h => ⟨(h3 2 h).1, (h3 2 h).2.1⟩⟩
